import Mathlib

/-!
Verification of the acf-parser repository against its specification.

The repository (src/parser.rs, src/errors.rs) parses Valve ACF files with the
chumsky parser-combinator library.  The grammar combinators used there have
deterministic PEG semantics (greedy repetition with rewind on a failed
attempt), which we embed shallowly as functions from the remaining input
(a list of characters) to an optional value paired with the rest of the input.
Machine-independent data (strings, lists, maps) is translated directly.
-/

namespace AcfParse

/-- Model of chumsky's SimpleSpan: a start/end offset pair.  Only its identity
matters here, since the repository never constructs a span. -/
structure SimpleSpan where
  start : Nat
  stop : Nat
deriving DecidableEq, Repr

/-- src/errors.rs, ParseError: sub-classification of grammar failures. -/
inductive ParseError where
  | ExpectedClosingBrace (span : SimpleSpan)
  | Unknown
deriving DecidableEq, Repr

/-- src/errors.rs, AcfError: top-level error type. -/
inductive AcfError where
  | Read (path : String)
  | Parse (e : ParseError)
  | Unknown
deriving DecidableEq, Repr

/-- src/parser.rs, struct Entry.  The Rust field `expressions` is a
HashMap<String, String>; a hash map is modelled as an association list with
pairwise-distinct keys, maintained by `hmInsert` below. -/
inductive Entry where
  | mk (name : String) (expressions : List (String × String)) (entries : List Entry)

/-- Field accessor for Entry.name (src/parser.rs, struct Entry). -/
def Entry.name : Entry → String
  | .mk n _ _ => n

/-- Field accessor for Entry.expressions (src/parser.rs, struct Entry). -/
def Entry.expressions : Entry → List (String × String)
  | .mk _ ex _ => ex

/-- Field accessor for Entry.entries (src/parser.rs, struct Entry). -/
def Entry.entries : Entry → List Entry
  | .mk _ _ es => es

/-- src/parser.rs, struct Expr: the transient key/value pair. -/
structure Expr where
  name : String
  value : String
deriving DecidableEq, Repr

/-- src/parser.rs, struct Acf: the parsed document. -/
structure Acf where
  entries : List Entry

/-- chumsky `padded()`: skip leading whitespace characters. -/
def skipWs : List Char → List Char
  | [] => []
  | c :: cs => if c.isWhitespace then skipWs cs else c :: cs

/-- The body of str_parser (src/parser.rs, lines 127-131):
`none_of('"').repeated()` followed by `just('"')` — consume every character up
to the next double quote, then the quote itself; fail at end of input. -/
def takeUntilQuote : List Char → Option (List Char × List Char)
  | [] => none
  | c :: cs =>
    if c = '\x22' then some ([], cs)
    else
      match takeUntilQuote cs with
      | none => none
      | some (s, r) => some (c :: s, r)

/-- src/parser.rs, fn str_parser: a double-quoted literal, padded on both
sides by insignificant whitespace. -/
def strParser (cs : List Char) : Option (String × List Char) :=
  match skipWs cs with
  | [] => none
  | c :: r =>
    if c = '\x22' then
      match takeUntilQuote r with
      | none => none
      | some (content, rest) => some (⟨content⟩, skipWs rest)
    else none

/-- `just("\x7b").padded()` used in entry_parser (src/parser.rs, line 90). -/
def openBrace (cs : List Char) : Option (List Char) :=
  match skipWs cs with
  | [] => none
  | c :: r => if c = '\x7b' then some (skipWs r) else none

/-- `just("\x7d").padded()` used in entry_parser (src/parser.rs, line 95). -/
def closeBrace (cs : List Char) : Option (List Char) :=
  match skipWs cs with
  | [] => none
  | c :: r => if c = '\x7d' then some (skipWs r) else none

/-- src/parser.rs, fn expr_parser: two consecutive string literals delimited
by whitespace, producing one Expr. -/
def exprParser (cs : List Char) : Option (Expr × List Char) :=
  match strParser cs with
  | none => none
  | some (s1, cs1) =>
    match strParser cs1 with
    | none => none
    | some (s2, cs2) => some ({ name := s1, value := s2 }, skipWs cs2)

/-- chumsky `repeated().collect::<Vec<_>>()`: greedy repetition; a failed
attempt rewinds and ends the loop.  The fuel argument bounds the number of
iterations; every parser repeated in this file consumes at least one
character per success, so a fuel of (input length + 1) is never exhausted. -/
def manyP {α : Type} (p : List Char → Option (α × List Char)) :
    Nat → List Char → List α × List Char
  | 0, cs => ([], cs)
  | fuel + 1, cs =>
    match p cs with
    | none => ([], cs)
    | some (v, rest) =>
      match manyP p fuel rest with
      | (vs, r2) => (v :: vs, r2)

/-- Rust HashMap insertion as performed by `collect::<HashMap<_,_>>()`
(src/parser.rs, lines 98-102): inserting an existing key overwrites its value,
a new key is added.  The key order of the association list is irrelevant to
the hash-map semantics. -/
def hmInsert : List (String × String) → String → String → List (String × String)
  | [], k, v => [(k, v)]
  | p :: m, k, v => if p.1 = k then (k, v) :: m else p :: hmInsert m k v

/-- `names.zip(values).collect::<HashMap<_,_>>()` (src/parser.rs, lines
98-102): fold the pairs in parse order into the map, later keys overwriting
earlier ones. -/
def hmCollect (ps : List (String × String)) : List (String × String) :=
  ps.foldl (fun m p => hmInsert m p.1 p.2) []

/-- HashMap lookup on the association-list model: the value of the first
pair whose key matches. -/
def hmGet : List (String × String) → String → Option String
  | [], _ => none
  | p :: m, k => if p.1 = k then some p.2 else hmGet m k

/-- The value of the last occurrence of key k in the pair list ps
(in parse order); none when k never occurs. -/
def lastVal (ps : List (String × String)) (k : String) : Option String :=
  hmGet ps.reverse k

/-- src/parser.rs, fn entry_parser: a literal name, an opening brace, greedy
expressions, greedy sub-entries (recursion), a closing brace.  The fuel
bounds the recursion depth; each nesting level consumes at least three
characters before recursing, so (input length + 1) fuel is never exhausted. -/
def entryParser : Nat → List Char → Option (Entry × List Char)
  | 0, _ => none
  | fuel + 1, cs =>
    match strParser cs with
    | none => none
    | some (name, cs1) =>
      match openBrace cs1 with
      | none => none
      | some cs2 =>
        match manyP exprParser (cs2.length + 1) cs2 with
        | (exprs, cs3) =>
          match manyP (entryParser fuel) (cs3.length + 1) cs3 with
          | (children, cs4) =>
            match closeBrace cs4 with
            | none => none
            | some cs5 =>
              some (.mk name (hmCollect (exprs.map fun ex => (ex.name, ex.value))) children, cs5)

/-- The repetition stage of acf_parser (src/parser.rs, lines 72-77):
`entry_parser().padded().repeated().collect()`. -/
def acfRun (cs : List Char) : List Entry × List Char :=
  manyP (entryParser (cs.length + 1)) (cs.length + 1) cs

/-- src/parser.rs, fn acf_parser: repeated entries followed by `end()` —
succeed only when the entire input was consumed. -/
def acfParser (cs : List Char) : Option (List Entry) :=
  match acfRun cs with
  | (entries, rest) => if rest.isEmpty then some entries else none

/-- src/parser.rs, fn parse_acf, lines 54-64: the parsing stage after the file
contents have been read.  On any grammar failure the individual chumsky
diagnostics are only printed, and the single returned value is
AcfError::Parse(ParseError::Unknown). -/
def parseAcf (contents : String) : Except AcfError Acf :=
  match acfParser contents.data with
  | some entries => .ok ⟨entries⟩
  | none => .error (.Parse .Unknown)

/-- A string is quote-free: none of its characters is a double quote. -/
def strQF (s : String) : Bool := s.data.all (fun c => c != '\x22')

/-- Both components of a key/value pair are quote-free. -/
def pairQF (p : String × String) : Bool := strQF p.1 && strQF p.2

mutual

/-- Every name, key and value in an Entry tree is quote-free. -/
def entryQF : Entry → Bool
  | .mk n ex es => strQF n && ex.all pairQF && entriesQF es

/-- Every name, key and value in a list of Entry trees is quote-free. -/
def entriesQF : List Entry → Bool
  | [] => true
  | e :: es => entryQF e && entriesQF es

end

/-- Spec scenario 3: a block missing its closing brace. -/
def inpMissingBrace : String := "\"AppState\"\n\x7b\n\t\"appid\"\t\t\"730\"\n"

/-- Spec scenario 2: the same key twice within one block. -/
def inpDupKey : String := "\"AppState\"\n\x7b\n\t\"appid\"\t\t\"1\"\n\t\"appid\"\t\t\"2\"\n\x7d\n"

/-- Spec scenario 4: a nested child block. -/
def inpNested : String :=
  "\"AppState\"\n\x7b\n\t\"UserConfig\"\n\t\x7b\n\t\t\"language\"\t\t\"english\"\n\t\x7d\n\x7d\n"

/-- Two top-level blocks, the second holding two children. -/
def inpMulti : String :=
  "\"A\"\n\x7b\n\x7d\n\"B\"\n\x7b\n\t\"C\"\n\t\x7b\n\t\x7d\n\t\"D\"\n\t\x7b\n\t\x7d\n\x7d\n"

/-- Spec scenario 6: an expression after a nested child block. -/
def inpViolation : String := "\"A\"\n\x7b\n\t\"B\"\n\t\x7b\n\t\x7d\n\t\"k\"\t\"v\"\n\x7d\n"

/-- A value literal whose text holds a backslash immediately followed by a
double quote: the quote terminates the literal, the backslash stays. -/
def inpBackslash : String := "\"A\" \x7b \"k\" \"v\\\" \x7d"

/-- A block with an empty name holding an expression with empty key and
empty value. -/
def inpEmptyLits : String := "\"\" \x7b \"\" \"\" \x7d"

/-- The empty input. -/
def inpEmpty : String := ""

/-- Two adjacent double quotes: the empty literal. -/
def inpQuotePair : String := "\"\""

/-- The entry produced for inpDupKey: only the later duplicate value kept. -/
def dupEntry : Entry := ⟨"AppState", [("appid", "2")], []⟩

/-- The entry produced for inpBackslash: the backslash is an ordinary
character of the value and the following quote closed the literal. -/
def bsEntry : Entry := ⟨"A", [("k", "v\\")], []⟩

/-! ## Helper lemmas -/

/-- A successful literal parse means the input (after whitespace) starts with
a double quote. -/
theorem strParser_quote_head (cs : List Char) (q : String × List Char)
    (h : strParser cs = some q) : ∃ t, skipWs cs = '\x22' :: t := by
  rcases hw : skipWs cs with _ | ⟨c, r⟩
  · simp [strParser, hw] at h
  · by_cases hc : c = '\x22'
    · exact ⟨r, by rw [hc]⟩
    · simp [strParser, hw, hc] at h

/-- A successful expression parse begins with a successful literal parse. -/
theorem exprParser_some_strParser (cs : List Char) (pr : Expr × List Char)
    (h : exprParser cs = some pr) : ∃ q, strParser cs = some q := by
  rcases hs : strParser cs with _ | q
  · simp [exprParser, hs] at h
  · exact ⟨q, rfl⟩

/-- Where an expression can start, the closing-brace check fails. -/
theorem closeBrace_none_of_exprParser (cs : List Char) (pr : Expr × List Char)
    (h : exprParser cs = some pr) : closeBrace cs = none := by
  obtain ⟨q, hq⟩ := exprParser_some_strParser cs pr h
  obtain ⟨t, ht⟩ := strParser_quote_head cs q hq
  have hne : ('\x22' : Char) = '\x7d' → False := by decide
  simp [closeBrace, ht, hne]

/-! ## Claim theorems -/

/-- C5: parsing the nested-block scenario input succeeds with one top-level
block named AppState whose mapping is empty and which has exactly one child
block named UserConfig whose mapping binds language to english. -/
theorem nested_block_scenario_parses :
    parseAcf inpNested =
      .ok ⟨[⟨"AppState", [], [⟨"UserConfig", [("language", "english")], []⟩]⟩]⟩ := rfl

/-- C7: parsing the empty string succeeds and returns a document with zero
top-level blocks. -/
theorem empty_input_yields_empty_document :
    inpEmpty.data = ([] : List Char) ∧ parseAcf inpEmpty = .ok ⟨[]⟩ := ⟨rfl, rfl⟩

/-- C10: two adjacent quotes parse as a valid literal with empty text, and a
block with an empty name holding an expression with an empty key and an
empty value parses successfully. -/
theorem empty_literals_accepted :
    strParser inpQuotePair.data = some ("", []) ∧
    parseAcf inpEmptyLits = .ok ⟨[⟨"", [("", "")], []⟩]⟩ := ⟨rfl, rfl⟩

/-- C8: the parse is deterministic — parsing the same text twice yields equal
results; the embedded parser is a pure function of the input text, with no
hidden state. -/
theorem parse_is_deterministic (s : String) (r1 r2 : Except AcfError Acf)
    (h1 : parseAcf s = r1) (h2 : parseAcf s = r2) : r1 = r2 := h1.symm.trans h2

/-- Witness for C8 at the empty input. -/
theorem parse_is_deterministic_witness :
    (Except.ok ⟨[]⟩ : Except AcfError Acf) = Except.ok ⟨[]⟩ :=
  parse_is_deterministic inpEmpty (.ok ⟨[]⟩) (.ok ⟨[]⟩) rfl rfl

/-- C1 (counterexample): on the missing-closing-brace input the parse fails
with Parse(Unknown); it does not return the ExpectedClosingBrace variant for
any span, contrary to the claim. -/
theorem missing_brace_error_is_unknown_not_located :
    parseAcf inpMissingBrace = .error (.Parse .Unknown) ∧
    ¬ ∃ sp : SimpleSpan,
        parseAcf inpMissingBrace = .error (.Parse (.ExpectedClosingBrace sp)) := by
  constructor
  · rfl
  · rintro ⟨sp, h⟩
    have h2 : (Except.error (AcfError.Parse ParseError.Unknown) : Except AcfError Acf) =
        .error (.Parse (.ExpectedClosingBrace sp)) :=
      (show parseAcf inpMissingBrace = .error (.Parse .Unknown) from rfl).symm.trans h
    simp at h2

/-- C1 (amended): every grammar failure — the missing-closing-brace input
included — is reported as a Parse error with the Unknown sub-classification;
the ExpectedClosingBrace variant is never produced. -/
theorem parse_failures_collapse_to_unknown (s : String)
    (h : acfParser s.data = none) : parseAcf s = .error (.Parse .Unknown) := by
  simp [parseAcf, h]

/-- Witness for the amended C1 at the missing-closing-brace input. -/
theorem parse_failures_collapse_to_unknown_witness :
    parseAcf inpMissingBrace = .error (.Parse .Unknown) :=
  parse_failures_collapse_to_unknown inpMissingBrace rfl

/-- C3: for every input, the document parse either consumes the whole input
and returns the full sequence of top-level blocks collected by the greedy
repetition stage, or — when input remains that does not start a valid
block — returns the single Parse(Unknown) error value; never a partial
document. -/
theorem document_parse_all_or_error (s : String) :
    ((acfRun s.data).2 = [] ∧ parseAcf s = .ok ⟨(acfRun s.data).1⟩) ∨
    ((acfRun s.data).2 ≠ [] ∧ parseAcf s = .error (.Parse .Unknown)) := by
  rcases hm : acfRun s.data with ⟨es, rest⟩
  cases rest with
  | nil => exact Or.inl ⟨by simp [hm], by simp [parseAcf, acfParser, hm]⟩
  | cons c r => exact Or.inr ⟨by simp [hm], by simp [parseAcf, acfParser, hm]⟩

/-- C6: the repetition stage (used both for top-level blocks and for a
block's children) keeps source order: a block parsed at the current position
is the head of the resulting sequence, followed by the blocks parsed from the
remaining input; a successfully parsed further block is never rejected. -/
theorem blocks_parse_in_source_order (f fuel : Nat) (cs : List Char)
    (e : Entry) (rest : List Char) (h : entryParser f cs = some (e, rest)) :
    manyP (entryParser f) (fuel + 1) cs =
      (e :: (manyP (entryParser f) fuel rest).1, (manyP (entryParser f) fuel rest).2) := by
  rcases hm : manyP (entryParser f) fuel rest with ⟨vs, r2⟩
  simp [manyP, h, hm]

/-- Witness for C6: two top-level blocks in sequence are both kept, in source
order, and the children of the second block keep their source order too. -/
theorem blocks_parse_in_source_order_witness :
    manyP (entryParser 3) 2 inpMulti.data =
      ([⟨"A", [], []⟩, ⟨"B", [], [⟨"C", [], []⟩, ⟨"D", [], []⟩]⟩], []) ∧
    parseAcf inpMulti =
      .ok ⟨[⟨"A", [], []⟩, ⟨"B", [], [⟨"C", [], []⟩, ⟨"D", [], []⟩]⟩]⟩ := by
  constructor
  · exact (blocks_parse_in_source_order 3 1 inpMulti.data _ _ rfl).trans rfl
  · rfl

/-- C4: within one block, once the greedy expression stage and the greedy
child-block stage have run, an expression starting at the current position
makes the whole block parse fail: the grammar never accepts a child block
followed by an expression at the same nesting level. -/
theorem no_expression_after_child_block (fuel : Nat)
    (cs cs1 cs2 cs3 cs4 : List Char) (nm : String)
    (exprs : List Expr) (children : List Entry) (pr : Expr × List Char)
    (h1 : strParser cs = some (nm, cs1))
    (h2 : openBrace cs1 = some cs2)
    (h3 : manyP exprParser (cs2.length + 1) cs2 = (exprs, cs3))
    (h4 : manyP (entryParser fuel) (cs3.length + 1) cs3 = (children, cs4))
    (h5 : exprParser cs4 = some pr) :
    entryParser (fuel + 1) cs = none := by
  have hc : closeBrace cs4 = none := closeBrace_none_of_exprParser cs4 pr h5
  simp [entryParser, h1, h2, h3, h4, hc]

/-! ## HashMap-model lemmas (for the duplicate-key property) -/

/-- hmInsert makes the inserted value the one found for its key. -/
theorem hmGet_hmInsert_self (m : List (String × String)) (k v : String) :
    hmGet (hmInsert m k v) k = some v := by
  induction m with
  | nil => simp [hmInsert, hmGet]
  | cons q m ih =>
    by_cases hq : q.1 = k
    · simp [hmInsert, hmGet, hq]
    · simp [hmInsert, hmGet, hq, ih]

/-- hmInsert leaves lookups of other keys unchanged. -/
theorem hmGet_hmInsert_ne (m : List (String × String)) (k v a : String)
    (h : ¬ k = a) :
    hmGet (hmInsert m k v) a = hmGet m a := by
  induction m with
  | nil => simp [hmInsert, hmGet, h]
  | cons q m ih =>
    by_cases hq : q.1 = k
    · simp [hmInsert, hmGet, hq, h]
    · simp [hmInsert, hmGet, hq, ih]

/-- The keys after an insertion are the old keys plus the inserted one. -/
theorem hmInsert_keys_mem (m : List (String × String)) (k v a : String) :
    a ∈ (hmInsert m k v).map Prod.fst ↔ a ∈ m.map Prod.fst ∨ a = k := by
  induction m with
  | nil => simp [hmInsert]
  | cons q m ih =>
    by_cases hq : q.1 = k
    · simp [hmInsert, hq]
      tauto
    · simp [hmInsert, hq, ih]
      tauto

/-- Insertion preserves distinctness of the keys. -/
theorem hmInsert_keys_nodup (m : List (String × String)) (k v : String)
    (h : (m.map Prod.fst).Nodup) :
    ((hmInsert m k v).map Prod.fst).Nodup := by
  induction m with
  | nil => simp [hmInsert]
  | cons q m ih =>
    simp only [List.map_cons, List.nodup_cons] at h
    by_cases hq : q.1 = k
    · simp only [hmInsert, if_pos hq, List.map_cons, List.nodup_cons]
      exact ⟨hq ▸ h.1, h.2⟩
    · simp only [hmInsert, if_neg hq, List.map_cons, List.nodup_cons]
      refine ⟨?_, ih h.2⟩
      intro hc
      rcases (hmInsert_keys_mem m k v q.1).mp hc with hc2 | hc2
      · exact h.1 hc2
      · exact hq hc2

/-- Every pair of an inserted map is an old pair or the inserted pair. -/
theorem hmInsert_mem_sub (m : List (String × String)) (k v : String)
    (q : String × String) (h : q ∈ hmInsert m k v) :
    q ∈ m ∨ q = (k, v) := by
  induction m with
  | nil => simp [hmInsert] at h; exact Or.inr h
  | cons p m ih =>
    by_cases hp : p.1 = k
    · simp only [hmInsert, if_pos hp, List.mem_cons] at h
      rcases h with h | h
      · exact Or.inr h
      · exact Or.inl (List.mem_cons_of_mem _ h)
    · simp only [hmInsert, if_neg hp, List.mem_cons] at h
      rcases h with h | h
      · exact Or.inl (h ▸ List.mem_cons_self _ _)
      · rcases ih h with h2 | h2
        · exact Or.inl (List.mem_cons_of_mem _ h2)
        · exact Or.inr h2

/-- Collecting one more pair is one insertion into the collected map. -/
theorem hmCollect_concat (ps : List (String × String)) (p : String × String) :
    hmCollect (ps ++ [p]) = hmInsert (hmCollect ps) p.1 p.2 := by
  simp [hmCollect, List.foldl_append]

/-- Last-write-wins: a lookup in the collected map returns the value of the
last occurrence of the key in the pair list. -/
theorem hmGet_hmCollect (ps : List (String × String)) (k : String) :
    hmGet (hmCollect ps) k = lastVal ps k := by
  induction ps using List.reverseRecOn with
  | nil => rfl
  | append_singleton ps p ih =>
    rw [hmCollect_concat]
    by_cases hpk : p.1 = k
    · subst hpk
      rw [hmGet_hmInsert_self]
      simp [lastVal, List.reverse_append, hmGet]
    · rw [hmGet_hmInsert_ne _ _ _ _ hpk, ih]
      simp [lastVal, List.reverse_append, hmGet, hpk]

/-- The collected map never holds two pairs with the same key. -/
theorem hmCollect_keys_nodup (ps : List (String × String)) :
    ((hmCollect ps).map Prod.fst).Nodup := by
  induction ps using List.reverseRecOn with
  | nil => simp [hmCollect]
  | append_singleton ps p ih =>
    rw [hmCollect_concat]
    exact hmInsert_keys_nodup _ _ _ ih

/-- A key is in the collected map exactly when it occurs among the pairs. -/
theorem hmCollect_keys_mem (ps : List (String × String)) (a : String) :
    a ∈ (hmCollect ps).map Prod.fst ↔ a ∈ ps.map Prod.fst := by
  induction ps using List.reverseRecOn with
  | nil => simp [hmCollect]
  | append_singleton ps p ih =>
    rw [hmCollect_concat, hmInsert_keys_mem]
    simp [ih]

/-- Every pair of the collected map is one of the collected pairs. -/
theorem hmCollect_mem_sub (ps : List (String × String)) (q : String × String)
    (h : q ∈ hmCollect ps) : q ∈ ps := by
  induction ps using List.reverseRecOn with
  | nil => simp [hmCollect] at h
  | append_singleton ps p ih =>
    rw [hmCollect_concat] at h
    rcases hmInsert_mem_sub _ _ _ _ h with h2 | h2
    · exact List.mem_append_left _ (ih h2)
    · exact List.mem_append_right _ (by simp [h2])

/-- The size of the collected map equals the number of distinct keys among
the pair occurrences. -/
theorem hmCollect_length (ps : List (String × String)) :
    (hmCollect ps).length = (ps.map Prod.fst).dedup.length := by
  have h1 := hmCollect_keys_nodup ps
  have h2 : ((ps.map Prod.fst).dedup).Nodup := List.nodup_dedup _
  have h3 : ∀ x, x ∈ (hmCollect ps).map Prod.fst ↔ x ∈ (ps.map Prod.fst).dedup := by
    intro x
    rw [List.mem_dedup]
    exact hmCollect_keys_mem ps x
  have hp : List.Perm ((hmCollect ps).map Prod.fst) ((ps.map Prod.fst).dedup) :=
    (List.perm_ext_iff_of_nodup h1 h2).mpr h3
  calc (hmCollect ps).length
      = ((hmCollect ps).map Prod.fst).length := (List.length_map _ _).symm
    _ = ((ps.map Prod.fst).dedup).length := hp.length_eq

/-- Inversion of a successful block parse into its five stages. -/
theorem entryParser_inv (fuel : Nat) (cs : List Char) (e : Entry)
    (rest : List Char) (h : entryParser (fuel + 1) cs = some (e, rest)) :
    ∃ nm cs1 cs2 exprs cs3 children cs4 cs5,
      strParser cs = some (nm, cs1) ∧
      openBrace cs1 = some cs2 ∧
      manyP exprParser (cs2.length + 1) cs2 = (exprs, cs3) ∧
      manyP (entryParser fuel) (cs3.length + 1) cs3 = (children, cs4) ∧
      closeBrace cs4 = some cs5 ∧
      e = .mk nm (hmCollect (exprs.map fun ex => (ex.name, ex.value))) children ∧
      rest = cs5 := by
  rcases h1 : strParser cs with _ | ⟨nm, cs1⟩
  · simp [entryParser, h1] at h
  · rcases h2 : openBrace cs1 with _ | cs2
    · simp [entryParser, h1, h2] at h
    · rcases h3 : manyP exprParser (cs2.length + 1) cs2 with ⟨exprs, cs3⟩
      rcases h4 : manyP (entryParser fuel) (cs3.length + 1) cs3 with ⟨children, cs4⟩
      rcases h5 : closeBrace cs4 with _ | cs5
      · simp [entryParser, h1, h2, h3, h4, h5] at h
      · simp only [entryParser, h1, h2, h3, h4, h5, Option.some.injEq, Prod.mk.injEq] at h
        exact ⟨nm, cs1, cs2, exprs, cs3, children, cs4, cs5, rfl, h2, h3, h4, h5,
          h.1.symm, h.2.symm⟩

/-- C2: for every well-formed block, the expressions mapping of the parsed
block is the hash-map collection of the block's expression occurrences in
parse order — exprs, the list produced by the greedy expression stage on the
block's own text: a lookup returns the value of the last occurrence of the
key in that list (earlier values are discarded), the mapping's keys are
pairwise distinct, and the mapping's size is the number of distinct keys
among the occurrences, not the number of occurrences. -/
theorem block_duplicate_keys_last_wins (fuel : Nat)
    (cs cs1 cs2 cs3 cs4 cs5 : List Char) (nm : String)
    (exprs : List Expr) (children : List Entry) (e : Entry) (rest : List Char)
    (h1 : strParser cs = some (nm, cs1))
    (h2 : openBrace cs1 = some cs2)
    (h3 : manyP exprParser (cs2.length + 1) cs2 = (exprs, cs3))
    (h4 : manyP (entryParser fuel) (cs3.length + 1) cs3 = (children, cs4))
    (h5 : closeBrace cs4 = some cs5)
    (h : entryParser (fuel + 1) cs = some (e, rest)) :
    e.expressions = hmCollect (exprs.map fun ex => (ex.name, ex.value)) ∧
    (∀ k, hmGet e.expressions k =
      lastVal (exprs.map fun ex => (ex.name, ex.value)) k) ∧
    (e.expressions.map Prod.fst).Nodup ∧
    e.expressions.length =
      ((exprs.map fun ex => (ex.name, ex.value)).map Prod.fst).dedup.length := by
  have hcomp : entryParser (fuel + 1) cs =
      some (.mk nm (hmCollect (exprs.map fun ex => (ex.name, ex.value))) children,
        cs5) := by
    simp [entryParser, h1, h2, h3, h4, h5]
  rw [h] at hcomp
  have he : e = .mk nm (hmCollect (exprs.map fun ex => (ex.name, ex.value))) children :=
    congrArg Prod.fst (Option.some.inj hcomp)
  subst he
  refine ⟨rfl, ?_, ?_, ?_⟩
  · intro k
    exact hmGet_hmCollect _ k
  · exact hmCollect_keys_nodup _
  · exact hmCollect_length _

/-- Witness for C2 at spec scenario 2: parsing the duplicate-key input yields
the block whose mapping is the collection of both occurrences of appid in
parse order, a lookup of appid returns the later value 2, and that value is
exactly the last occurrence of the key in the block's text. -/
theorem block_duplicate_keys_last_wins_witness :
    entryParser 1 inpDupKey.data = some (dupEntry, []) ∧
    dupEntry.expressions = hmCollect [("appid", "1"), ("appid", "2")] ∧
    hmGet dupEntry.expressions ("appid") = some ("2") ∧
    lastVal [("appid", "1"), ("appid", "2")] ("appid") = some ("2") := by
  have h := block_duplicate_keys_last_wins 0 inpDupKey.data _ _ _ _ _ _ _ _ dupEntry []
    rfl rfl rfl rfl rfl rfl
  exact ⟨rfl, h.1, (h.2.1 ("appid")).trans rfl, rfl⟩

/-- Witness for C4: the block of inpViolation (child B followed by the
expression k/v) fails to parse, and the whole document parse fails with a
Parse error. -/
theorem no_expression_after_child_block_witness :
    entryParser 2 inpViolation.data = none ∧
    parseAcf inpViolation = .error (.Parse .Unknown) := by
  constructor
  · exact no_expression_after_child_block 1 inpViolation.data _ _ _ _ _ _ _ _
      rfl rfl rfl rfl rfl
  · rfl

/-! ## Quote-freeness of parsed literals -/

/-- The characters captured before the closing quote never include a double
quote: the scan stops at the first one, with no escape mechanism. -/
theorem takeUntilQuote_no_quote (cs : List Char) :
    ∀ content r, takeUntilQuote cs = some (content, r) →
      ∀ x ∈ content, x ≠ '\x22' := by
  induction cs with
  | nil => intro content r h; simp [takeUntilQuote] at h
  | cons c cs ih =>
    intro content r h
    by_cases hc : c = '\x22'
    · simp [takeUntilQuote, hc] at h
      rcases h with ⟨h1, h2⟩
      subst h1
      intro x hx
      simp at hx
    · rcases ht : takeUntilQuote cs with _ | ⟨s, r2⟩
      · simp [takeUntilQuote, hc, ht] at h
      · simp [takeUntilQuote, hc, ht] at h
        rcases h with ⟨h1, h2⟩
        subst h1
        intro x hx
        rcases List.mem_cons.mp hx with rfl | hx2
        · exact hc
        · exact ih s r2 ht x hx2

/-- Every literal returned by the literal scanner is quote-free. -/
theorem strParser_qf (cs : List Char) (s : String) (r : List Char)
    (h : strParser cs = some (s, r)) : strQF s = true := by
  rcases hw : skipWs cs with _ | ⟨c, t⟩
  · simp [strParser, hw] at h
  · by_cases hc : c = '\x22'
    · rcases ht : takeUntilQuote t with _ | ⟨content, rest⟩
      · simp [strParser, hw, hc, ht] at h
      · simp [strParser, hw, hc, ht] at h
        rcases h with ⟨h1, h2⟩
        subst h1
        show content.all (fun x => x != '\x22') = true
        rw [List.all_eq_true]
        intro x hx
        simpa using takeUntilQuote_no_quote t content rest ht x hx
    · simp [strParser, hw, hc] at h

/-- Both components of a parsed expression are quote-free. -/
theorem exprParser_qf (cs : List Char) (ex : Expr) (r : List Char)
    (h : exprParser cs = some (ex, r)) :
    strQF ex.name = true ∧ strQF ex.value = true := by
  rcases h1 : strParser cs with _ | ⟨s1, cs1⟩
  · simp [exprParser, h1] at h
  · rcases h2 : strParser cs1 with _ | ⟨s2, cs2⟩
    · simp [exprParser, h1, h2] at h
    · simp only [exprParser, h1, h2, Option.some.injEq, Prod.mk.injEq] at h
      rcases h with ⟨h3, h4⟩
      subst h3
      exact ⟨strParser_qf cs s1 cs1 h1, strParser_qf cs1 s2 cs2 h2⟩

/-- Every element collected by the repetition combinator was produced by a
successful run of the repeated parser on some input. -/
theorem manyP_mem {α : Type} (p : List Char → Option (α × List Char)) :
    ∀ (fuel : Nat) (cs : List Char) (v : α), v ∈ (manyP p fuel cs).1 →
      ∃ cs1 r1, p cs1 = some (v, r1) := by
  intro fuel
  induction fuel with
  | zero => intro cs v hv; simp [manyP] at hv
  | succ f ih =>
    intro cs v hv
    rcases hp : p cs with _ | ⟨v0, rest0⟩
    · simp [manyP, hp] at hv
    · rcases hm2 : manyP p f rest0 with ⟨vs, r2⟩
      simp [manyP, hp, hm2] at hv
      rcases hv with rfl | hv2
      · exact ⟨cs, rest0, hp⟩
      · exact ih rest0 v (by rw [hm2]; exact hv2)

/-- A list of blocks is quote-free when each of its blocks is. -/
theorem entriesQF_of_forall (es : List Entry)
    (h : ∀ e ∈ es, entryQF e = true) : entriesQF es = true := by
  induction es with
  | nil => rfl
  | cons e es ih =>
    simp only [entriesQF, Bool.and_eq_true]
    exact ⟨h e (List.mem_cons_self e es),
      ih fun x hx => h x (List.mem_cons_of_mem e hx)⟩

/-- Every successfully parsed block is quote-free throughout: its name, its
expression keys and values, and all of its children, recursively. -/
theorem entryParser_qf :
    ∀ (fuel : Nat) (cs : List Char) (e : Entry) (rest : List Char),
      entryParser fuel cs = some (e, rest) → entryQF e = true := by
  intro fuel
  induction fuel with
  | zero => intro cs e rest h; simp [entryParser] at h
  | succ f ih =>
    intro cs e rest h
    obtain ⟨nm, cs1, cs2, exprs, cs3, children, cs4, cs5, h1, h2, h3, h4, h5, he, hr⟩ :=
      entryParser_inv f cs e rest h
    subst he
    simp only [entryQF, Bool.and_eq_true]
    refine ⟨⟨strParser_qf cs nm cs1 h1, ?_⟩, ?_⟩
    · rw [List.all_eq_true]
      intro q hq
      have hq2 := hmCollect_mem_sub _ _ hq
      obtain ⟨ex, hex, hexq⟩ := List.mem_map.mp hq2
      obtain ⟨csx, rx, hx⟩ :=
        manyP_mem exprParser (cs2.length + 1) cs2 ex (by rw [h3]; exact hex)
      obtain ⟨hqn, hqv⟩ := exprParser_qf csx ex rx hx
      rw [← hexq]
      simp [pairQF, hqn, hqv]
    · apply entriesQF_of_forall
      intro e2 he2
      obtain ⟨csx, rx, hx⟩ :=
        manyP_mem (entryParser f) (cs3.length + 1) cs3 e2 (by rw [h4]; exact he2)
      exact ih csx e2 rx hx

/-- C9: the literal scanner stops at the first double quote and has no escape
mechanism, so no name, key or value anywhere in a successfully parsed
document contains a double-quote character. -/
theorem parsed_literals_contain_no_quote (cs : List Char) (es : List Entry)
    (h : acfParser cs = some es) : entriesQF es = true := by
  rcases hr : acfRun cs with ⟨l, rest⟩
  simp only [acfParser, hr] at h
  by_cases hrest : rest.isEmpty
  · rw [if_pos hrest] at h
    have hle : l = es := Option.some.inj h
    subst hle
    apply entriesQF_of_forall
    intro e he
    have hr2 : manyP (entryParser (cs.length + 1)) (cs.length + 1) cs = (l, rest) := hr
    obtain ⟨csx, rx, hx⟩ :=
      manyP_mem (entryParser (cs.length + 1)) (cs.length + 1) cs e
        (by rw [hr2]; exact he)
    exact entryParser_qf (cs.length + 1) csx e rx hx
  · rw [if_neg hrest] at h
    exact Option.noConfusion h

/-- Witness for C9: a document whose value literal held a backslash directly
followed by a double quote parses with the quote terminating the literal (the
backslash stays, the quote is not represented), and the result is quote-free. -/
theorem parsed_literals_contain_no_quote_witness :
    entriesQF [bsEntry] = true ∧ parseAcf inpBackslash = .ok ⟨[bsEntry]⟩ :=
  ⟨parsed_literals_contain_no_quote inpBackslash.data [bsEntry] rfl, rfl⟩

end AcfParse
